import Mathlib

attribute [local semireducible] Rat.add Rat.sub Rat.mul Rat.inv Rat.ofScientific

/-!
# Verification of the copy-trading bot core

A shallow embedding of the bot's real-time pipeline:
* `infer_intent_from_tx` (src/engine/intent.rs) — heuristic intent inference
  over the raw JSON stream event;
* `sol_to_lamports`, the orchestrator step of `run_copy_trader`
  (src/engine/copy_trader.rs) — dedup, inference, execution dispatch;
* `jupiter_quote` / `jupiter_swap_tx` / `sign_and_send_swap`
  (src/dex/jupiter.rs) — the execution pipeline, with HTTP transport
  outcomes supplied as oracle values;
* `connect_forever` (src/helius/ws.rs) — the connect-retry helper.

Modelling conventions: `f64` values are modelled as exact rationals (`ℚ`);
`serde_json::Value` is the inductive `Json`; Rust `HashMap`s are association
lists with insert-overwrite semantics, the list order standing in for the
map's iteration order; fallible calls return `Except String _`; external
HTTP/RPC responses are oracle inputs threaded through an `EventEnv`.
-/

/-- Model of `serde_json::Value`: numbers are exact rationals. -/
inductive Json where
  | null
  | bool (b : Bool)
  | num (q : ℚ)
  | str (s : String)
  | arr (xs : List Json)
  | obj (fields : List (String × Json))

/-- Object field lookup (first match), as `serde_json::Map` lookup. -/
def lookupField : List (String × Json) → String → Option Json
  | [], _ => none
  | (k, v) :: rest, key => if k = key then some v else lookupField rest key

/-- Model of `Value::get(key)` on objects; `None` elsewhere. -/
def Json.get : Json → String → Option Json
  | .obj fields, key => lookupField fields key
  | _, _ => none

/-- Model of `Value::pointer` restricted to object-key path tokens (the only ones the
source uses: `/params/result`, `/result`, `/uiTokenAmount/uiAmount`,
`/params/result/signature`). -/
def jPointer : Json → List String → Option Json
  | j, [] => some j
  | j, k :: rest =>
    match j.get k with
    | some v => jPointer v rest
    | none => none

/-- Model of `Value::as_str`. -/
def Json.asStr : Json → Option String
  | .str s => some s
  | _ => none

/-- Model of `Value::as_f64` (every modelled number is already a rational). -/
def Json.asF64 : Json → Option ℚ
  | .num q => some q
  | _ => none

/-- Model of `Value::as_array`. -/
def Json.asArr : Json → Option (List Json)
  | .arr xs => some xs
  | _ => none

/-! ## Base58 / `Pubkey::from_str` (solana_sdk boundary)

`Pubkey::from_str` rejects strings longer than 44 characters, then base58
decodes and requires exactly 32 bytes.  A pubkey is modelled as its 32-byte
list. -/

def Pubkey : Type := List ℕ

instance : DecidableEq Pubkey := fun a b => instDecidableEqList a b

/-- The bitcoin base58 alphabet used by bs58. -/
def base58Chars : List Char :=
  "123456789ABCDEFGHJKLMNPQRSTUVWXYZabcdefghijkmnopqrstuvwxyz".toList

/-- Digit value of one base58 character; `none` on characters outside the
alphabet (`0`, `I`, `O`, `l`, …). -/
def b58Digit (c : Char) : Option ℕ :=
  base58Chars.findIdx? (fun x => x = c)

/-- Big-endian value of a base58 digit string. -/
def natFromDigits (ds : List ℕ) : ℕ :=
  ds.foldl (fun a d => a * 58 + d) 0

/-- Minimal big-endian byte expansion of `n`, with explicit fuel (one base58
digit always carries less than one byte of information, so the digit count
is sufficient fuel). -/
def natToBytesAux : ℕ → ℕ → List ℕ
  | 0, _ => []
  | fuel + 1, n => if n = 0 then [] else natToBytesAux fuel (n / 256) ++ [n % 256]

/-- bs58 decode: leading `'1'` characters become leading zero bytes, the
remaining value is expanded big-endian. -/
def b58Decode (s : String) : Option (List ℕ) :=
  match s.toList.mapM b58Digit with
  | none => none
  | some ds =>
      some (List.replicate ((ds.takeWhile (fun d => d = 0)).length) 0 ++
        natToBytesAux ds.length (natFromDigits ds))

/-- Model of `Pubkey::from_str`: length cap 44, base58 decode, exactly 32 bytes. -/
def pubkeyFromStr (s : String) : Option Pubkey :=
  if s.length > 44 then none
  else
    match b58Decode s with
    | none => none
    | some bs => if bs.length = 32 then some bs else none

/-! ## Intent inference (src/engine/intent.rs) -/

/-- Model of `MirrorIntent` (src/type/events.rs). -/
inductive MirrorIntent where
  | buy (output_mint : Pubkey) (max_input_sol : ℚ)
  | sell (input_mint : Pubkey) (fraction : ℚ)
  deriving DecidableEq

instance {ε α : Type} [DecidableEq ε] [DecidableEq α] : DecidableEq (Except ε α)
  | .ok a, .ok b =>
    if h : a = b then .isTrue (by rw [h]) else .isFalse (fun hh => h (Except.ok.inj hh))
  | .ok _, .error _ => .isFalse (fun hh => Except.noConfusion hh)
  | .error _, .ok _ => .isFalse (fun hh => Except.noConfusion hh)
  | .error a, .error b =>
    if h : a = b then .isTrue (by rw [h]) else .isFalse (fun hh => h (Except.error.inj hh))

/-- The dust threshold `0.0000001` from the source, as an exact rational. -/
def dust : ℚ := 1 / 10000000

/-- Model of `HashMap::insert`: replace an existing binding for the key, else append. -/
def insertAssoc : List (String × ℚ) → String → ℚ → List (String × ℚ)
  | [], k, v => [(k, v)]
  | (k', v') :: rest, k, v =>
    if k' = k then (k, v) :: rest else (k', v') :: insertAssoc rest k v

/-- Model of `HashMap::get`. -/
def alookup : List (String × ℚ) → String → Option ℚ
  | [], _ => none
  | (k, v) :: rest, key => if k = key then some v else alookup rest key

/-- One entry of a token-balance array: the source keeps it only when both
`mint` (a string) and `uiTokenAmount.uiAmount` (a number) are present. -/
def entryOf (x : Json) : Option (String × ℚ) :=
  match x.get "mint", jPointer x ["uiTokenAmount", "uiAmount"] with
  | some mint, some ui =>
    match mint.asStr, ui.asF64 with
    | some m, some v => some (m, v)
    | _, _ => none
  | _, _ => none

/-- Build the `mint -> uiAmount` map from a balance array, skipping
malformed entries, as the two `for` loops in `infer_intent_from_tx`. -/
def buildMap (xs : List Json) : List (String × ℚ) :=
  xs.foldl (fun m x => match entryOf x with | some (k, v) => insertAssoc m k v | none => m) []

/-- The `for (mint, post_v) in &post_map` selection loop: track the best
`(mint, delta)` so far; a positive delta below dust is skipped; a strictly
larger delta replaces the best.  The entry-list order stands in for the
`HashMap` iteration order. -/
def selectLoop (preMap : List (String × ℚ)) :
    List (String × ℚ) → Option (String × ℚ) → Option (String × ℚ)
  | [], best => best
  | (mint, postV) :: rest, best =>
    let preV := (alookup preMap mint).getD 0
    let delta := postV - preV
    let best' :=
      if delta > 0 then
        if delta < dust then best
        else
          match best with
          | none => some (mint, delta)
          | some (bm, bd) => if delta > bd then some (mint, delta) else some (bm, bd)
      else best
    selectLoop preMap rest best'

/-- Tail of `infer_intent_from_tx` once the two balance maps are built:
select the best mint, parse it (`?` surfaces a parse failure as an error),
and return the `Buy` intent carrying `max_buy_sol` verbatim. -/
def infer_core (preMap postMap : List (String × ℚ)) (maxBuySol : ℚ) :
    Except String (Option MirrorIntent) :=
  match selectLoop preMap postMap none with
  | none => .ok none
  | some (mint, _) =>
    match pubkeyFromStr mint with
    | none => .error ("invalid mint pubkey: " ++ mint)
    | some p => .ok (some (.buy p maxBuySol))

/-- Model of `/params/result` with `/result` fallback. -/
def getTxResult (msg : Json) : Option Json :=
  match jPointer msg ["params", "result"] with
  | some r => some r
  | none => jPointer msg ["result"]

/-- Model of `infer_intent_from_tx` (src/engine/intent.rs): locate the transaction
result and its `meta`, build the pre/post balance maps, and select the mint
with the largest positive above-dust delta. -/
def infer_intent_from_tx (msg : Json) (maxBuySol : ℚ) :
    Except String (Option MirrorIntent) :=
  match getTxResult msg with
  | none => .ok none
  | some r =>
    match r.get "meta" with
    | none => .ok none
    | some meta =>
      let preMap := buildMap (((meta.get "preTokenBalances").bind Json.asArr).getD [])
      let postMap := buildMap (((meta.get "postTokenBalances").bind Json.asArr).getD [])
      infer_core preMap postMap maxBuySol

/-! Derived views of the same extraction, used to state the claims. -/

/-- The `meta` object the inference reads, when the payload has the shape. -/
def metaOf (msg : Json) : Option Json :=
  match getTxResult msg with
  | none => none
  | some r => r.get "meta"

/-- The pre-transaction balance map the inference builds. -/
def preMapOf (msg : Json) : List (String × ℚ) :=
  match metaOf msg with
  | none => []
  | some meta => buildMap (((meta.get "preTokenBalances").bind Json.asArr).getD [])

/-- The post-transaction balance map the inference builds. -/
def postMapOf (msg : Json) : List (String × ℚ) :=
  match metaOf msg with
  | none => []
  | some meta => buildMap (((meta.get "postTokenBalances").bind Json.asArr).getD [])

/-- The balance delta of one post-map entry: post minus pre, missing pre
defaulting to 0. -/
def deltaAt (preMap : List (String × ℚ)) (kv : String × ℚ) : ℚ :=
  kv.2 - (alookup preMap kv.1).getD 0

/-- The token/delta pairs for every token present post-transaction. -/
def postTokenDeltas (msg : Json) : List (String × ℚ) :=
  (postMapOf msg).map (fun kv => (kv.1, deltaAt (preMapOf msg) kv))

/-- An entry passes the source's candidacy test: positive delta, not dust. -/
def qual (preMap : List (String × ℚ)) (kv : String × ℚ) : Prop :=
  deltaAt preMap kv > 0 ∧ ¬ deltaAt preMap kv < dust

instance (preMap : List (String × ℚ)) (kv : String × ℚ) : Decidable (qual preMap kv) :=
  inferInstanceAs (Decidable (_ ∧ _))

/-- Keys of an association list are pairwise distinct. -/
def keysNodup (l : List (String × ℚ)) : Prop := (l.map Prod.fst).Nodup

instance (l : List (String × ℚ)) : Decidable (keysNodup l) :=
  inferInstanceAs (Decidable (List.Nodup _))

/-! ## Amount conversion (src/engine/copy_trader.rs, `sol_to_lamports`) -/

/-- Model of `f64::round`: round half away from zero. -/
def rustRound (x : ℚ) : ℤ :=
  if 0 ≤ x then ⌊x + 1 / 2⌋ else ⌈x - 1 / 2⌉

/-- Rust `as u64` cast of an integer-valued float: saturating at the ends. -/
def u64Cast (i : ℤ) : ℕ := min i.toNat (2 ^ 64 - 1)

/-- Model of `sol_to_lamports`: reject amounts outside `0.0..=1000.0`, otherwise
multiply by 1e9, round, and cast. -/
def sol_to_lamports (sol : ℚ) : Except String ℕ :=
  if 0 ≤ sol ∧ sol ≤ 1000 then .ok (u64Cast (rustRound (sol * 1000000000)))
  else .error "SOL amount out of safe range"

/-! ## Quote / swap client (src/dex/jupiter.rs)

HTTP transport outcomes (status, body, parsed JSON) are oracle inputs; the
functions below model what the source does with a received response. -/

/-- An HTTP response as the client observes it. -/
structure HttpResp where
  status : ℕ
  body : String
  json : Json

def SOL_MINT : String := "So11111111111111111111111111111111111111112"

/-- Model of `reqwest::StatusCode::is_success`. -/
def isSuccess (status : ℕ) : Prop := 200 ≤ status ∧ status < 300

instance (status : ℕ) : Decidable (isSuccess status) :=
  inferInstanceAs (Decidable (_ ∧ _))

/-- Model of `jupiter_quote`: on a non-success status the response body becomes the
error detail; on success the parsed JSON is returned. -/
def jupiter_quote (resp : HttpResp) : Except String Json :=
  if isSuccess resp.status then .ok resp.json
  else .error ("Jupiter quote failed: " ++ resp.body)

/-- Model of `jupiter_swap_tx`: on a non-success status the response body becomes the
error detail; on success the `swapTransaction` base64 string is extracted
(a missing/ill-typed field is a deserialization error). -/
def jupiter_swap_tx (resp : HttpResp) : Except String String :=
  if isSuccess resp.status then
    match (resp.json.get "swapTransaction").bind Json.asStr with
    | some s => .ok s
    | none => .error "error decoding swap response body"
  else .error ("Jupiter swap failed: " ++ resp.body)

/-! ## Versioned transaction and re-signing (src/dex/jupiter.rs) -/

/-- A legacy message: the recent-blockhash slot plus the rest of the message
(account keys, instructions) abstracted as an opaque payload. -/
structure LegacyMessage where
  recent_blockhash : ℕ
  payload : ℕ
  deriving DecidableEq

/-- A v0 message, same shape. -/
structure V0Message where
  recent_blockhash : ℕ
  payload : ℕ
  deriving DecidableEq

/-- Model of `solana_sdk::message::VersionedMessage`. -/
inductive VersionedMessage where
  | legacy (m : LegacyMessage)
  | v0 (m : V0Message)
  deriving DecidableEq

def msgBlockhash : VersionedMessage → ℕ
  | .legacy m => m.recent_blockhash
  | .v0 m => m.recent_blockhash

def msgPayload : VersionedMessage → ℕ
  | .legacy m => m.payload
  | .v0 m => m.payload

def isLegacy : VersionedMessage → Bool
  | .legacy _ => true
  | .v0 _ => false

/-- A signature records what it was produced over: the signer's key and the
full message content (blockhash and payload). -/
structure SigV where
  signer : ℕ
  blockhash : ℕ
  payload : ℕ
  deriving DecidableEq

/-- Model of `solana_sdk::transaction::VersionedTransaction`. -/
structure VersionedTransaction where
  signatures : List SigV
  message : VersionedMessage
  deriving DecidableEq

/-- The blockhash-replacement `match` in `sign_and_send_swap`: rebuild the
message with the freshly fetched blockhash, preserving the encoding. -/
def refreshBlockhash : VersionedMessage → ℕ → VersionedMessage
  | .legacy m, h => .legacy { m with recent_blockhash := h }
  | .v0 m, h => .v0 { m with recent_blockhash := h }

/-- Modelled SDK signing boundary (`tx.sign(&signers, latest)`): the signer
set produces fresh signatures over the transaction's current message,
replacing whatever signatures were present. -/
def signVersioned (wallet : ℕ) (tx : VersionedTransaction) : VersionedTransaction :=
  { tx with signatures := [⟨wallet, msgBlockhash tx.message, msgPayload tx.message⟩] }

/-- Steps 5-6 of the pipeline on the decoded transaction: refresh the
blockhash inside the message, install the rebuilt message, re-sign. -/
def refreshAndSign (wallet : ℕ) (tx : VersionedTransaction) (latest : ℕ) :
    VersionedTransaction :=
  signVersioned wallet { tx with message := refreshBlockhash tx.message latest }

/-- Model of `sign_and_send_swap` after base64+bincode decoding (`decoded = none`
models a decode failure); submission outcome is an oracle input. -/
def signAndSendSwap (wallet : ℕ) (decoded : Option VersionedTransaction)
    (latest : ℕ) (sendResult : Except String String) : Except String String :=
  match decoded with
  | none => .error "failed to decode swap transaction"
  | some tx =>
    let _signed := refreshAndSign wallet tx latest
    sendResult

/-! ## Copy-trade orchestrator (src/engine/copy_trader.rs) -/

/-- Configuration read at startup. -/
structure TraderConfig where
  maxBuySol : ℚ
  slippageBps : ℕ
  mirrorBuysOnly : Bool
  wallet : ℕ
  deriving DecidableEq

/-- Oracle outcomes of the external calls one event's execution may make. -/
structure EventEnv where
  quoteResp : HttpResp
  swapResp : HttpResp
  decodedTx : Option VersionedTransaction
  latest : ℕ
  sendResult : Except String String

/-- Observable actions of one orchestrator iteration. -/
inductive TAct where
  | inferCall
  | inferErr (e : String)
  | buyOnlyLog
  | quoteCall (inputMint : String) (outputMint : Pubkey) (lamports : ℕ) (slippageBps : ℕ)
  | quoteErr (e : String)
  | swapCall
  | swapErr (e : String)
  | sendCall
  | sendOk (sig : String)
  | sendErr (e : String)
  | sellLog
  deriving DecidableEq

/-- Model of `/params/result/signature` extraction at the top of the loop body. -/
def extractSig (msg : Json) : Option String :=
  (jPointer msg ["params", "result", "signature"]).bind Json.asStr

/-- The `Buy` arm of the loop body: optional informational log, amount
conversion (whose failure aborts the whole loop via `?`), then the
quote -> swap-build -> sign-and-send chain, each failure logged and ending
the attempt.  Returns the actions and the loop-abort flag. -/
def execBuy (cfg : TraderConfig) (env : EventEnv) (mint : Pubkey) (maxSol : ℚ) :
    List TAct × Bool :=
  let pre := if cfg.mirrorBuysOnly then [] else [TAct.buyOnlyLog]
  match sol_to_lamports maxSol with
  | .error _ => (pre, true)
  | .ok lamports =>
    let acts1 := pre ++ [TAct.quoteCall SOL_MINT mint lamports cfg.slippageBps]
    match jupiter_quote env.quoteResp with
    | .error e => (acts1 ++ [.quoteErr e], false)
    | .ok _ =>
      let acts2 := acts1 ++ [TAct.swapCall]
      match jupiter_swap_tx env.swapResp with
      | .error e => (acts2 ++ [.swapErr e], false)
      | .ok _ =>
        let acts3 := acts2 ++ [TAct.sendCall]
        match signAndSendSwap cfg.wallet env.decodedTx env.latest env.sendResult with
        | .error e => (acts3 ++ [.sendErr e], false)
        | .ok s => (acts3 ++ [.sendOk s], false)

/-- Actions of the loop body after the dedup guard: infer, log-and-drop on
error / `None` / `Sell`, dispatch to `execBuy` on `Buy`. -/
def processMsgActs (cfg : TraderConfig) (msg : Json) (env : EventEnv) :
    List TAct × Bool :=
  match infer_intent_from_tx msg cfg.maxBuySol with
  | .error e => ([.inferCall, .inferErr e], false)
  | .ok none => ([.inferCall], false)
  | .ok (some (.sell _ _)) => ([.inferCall, .sellLog], false)
  | .ok (some (.buy mint maxSol)) =>
    let r := execBuy cfg env mint maxSol
    (.inferCall :: r.1, r.2)

/-- Loop body after the dedup guard; the body never touches `last_sig`
(the source updates it in the guard, before inference runs). -/
def processMsg (cfg : TraderConfig) (st : Option String) (msg : Json)
    (env : EventEnv) : Option String × List TAct × Bool :=
  (st, processMsgActs cfg msg env)

/-- One full loop iteration: extract the signature, skip the event when it
matches `last_sig`, otherwise store it and process the payload. -/
def stepTrader (cfg : TraderConfig) (st : Option String) (msg : Json)
    (env : EventEnv) : Option String × List TAct × Bool :=
  match extractSig msg with
  | some s => if st = some s then (st, [], false) else processMsg cfg (some s) msg env
  | none => processMsg cfg st msg env

/-- The `while let Some(msg) = stream.next()` loop over a delivered frame
sequence: per-event action traces, final `last_sig`, and whether the loop
aborted with an error. -/
def traderRun (cfg : TraderConfig) (env : ℕ → EventEnv) :
    Option String → ℕ → List Json → List (List TAct) × Option String × Bool
  | st, _, [] => ([], st, false)
  | st, i, msg :: rest =>
    let r := stepTrader cfg st msg (env i)
    if r.2.2 then ([r.2.1], r.1, true)
    else
      let rest' := traderRun cfg env r.1 (i + 1) rest
      (r.2.1 :: rest'.1, rest'.2.1, rest'.2.2)

/-- The signature-tracking fold the loop implements: the last signature of
any earlier event that had one. -/
def lastSigFold (st : Option String) (events : List Json) : Option String :=
  events.foldl (fun acc e => match extractSig e with | some s => some s | none => acc) st

/-! ## Stream consumer retry (src/helius/ws.rs, `connect_forever`) -/

/-- Model of `connect_forever` over a (finite prefix of the) sequence of connection
attempt outcomes: return the first successfully established frame stream
together with the number of failed attempts retried before it (each costing
one fixed 3-second sleep).  `none` means every listed attempt failed and
the real loop is still retrying. -/
def connectForever : List (Except String (List Json)) → Option (ℕ × List Json)
  | [] => none
  | .ok s :: _ => some (0, s)
  | .error _ :: rest => (connectForever rest).map (fun p => (p.1 + 1, p.2))

/-- Model of `run_copy_trader` after startup: connect (retrying), then run the loop
over the frames the one established stream delivers before it ends. -/
def runCopyTrader (cfg : TraderConfig) (env : ℕ → EventEnv)
    (attempts : List (Except String (List Json))) :
    Option (List (List TAct) × Option String × Bool) :=
  (connectForever attempts).map (fun p => traderRun cfg env none 0 p.2)

/-! ## Lemmas about the selection loop -/

/-- One iteration of the selection loop, factored out for reasoning. -/
def selStep (preMap : List (String × ℚ)) (best : Option (String × ℚ))
    (kv : String × ℚ) : Option (String × ℚ) :=
  let delta := deltaAt preMap kv
  if delta > 0 then
    if delta < dust then best
    else
      match best with
      | none => some (kv.1, delta)
      | some (bm, bd) => if delta > bd then some (kv.1, delta) else some (bm, bd)
  else best

/-! ## Concrete data for witnesses and counterexamples -/

/-- The system program id: a valid base58 pubkey (32 zero bytes). -/
def mintA : String := "11111111111111111111111111111111"

/-- Wrapped-SOL mint string (also `SOL_MINT`). -/
def mintB : String := "So11111111111111111111111111111111111111112"

/-- The USDC mint: another valid base58 pubkey. -/
def mintC : String := "EPjFWdd5AufqSSqeM2qN1xzybapC8G4wEGGkZwyTDt1v"

def pkA : Pubkey := List.replicate 32 0

def pkB : Pubkey :=
  [6, 155, 136, 87, 254, 171, 129, 132, 251, 104, 127, 99, 70, 24, 192, 53,
   218, 196, 57, 220, 26, 235, 59, 85, 152, 160, 240, 0, 0, 0, 0, 1]

def pkC : Pubkey :=
  [198, 250, 122, 243, 190, 219, 173, 58, 61, 101, 243, 106, 171, 201, 116, 49,
   177, 187, 228, 194, 210, 246, 224, 228, 124, 166, 2, 3, 69, 47, 93, 97]

/-- One token-balance array entry in the feed's shape. -/
def balEntry (mint : String) (amt : ℚ) : Json :=
  .obj [("mint", .str mint), ("uiTokenAmount", .obj [("uiAmount", .num amt)])]

/-- A transaction-notification payload with the given balance arrays. -/
def txEvent (pre post : List Json) : Json :=
  .obj [("params", .obj [("result", .obj [
    ("meta", .obj [("preTokenBalances", .arr pre), ("postTokenBalances", .arr post)])])])]

/-- Payload whose single post-token delta is exactly the dust threshold. -/
def cexDustEvent : Json := txEvent [] [balEntry mintB dust]

/-- Payload with pre = A:1 and post = A:1, B:0.5, C:0.6. -/
def exABC : Json :=
  txEvent [balEntry mintA 1]
    [balEntry mintA 1, balEntry mintB (1 / 2), balEntry mintC (3 / 5)]

/-- A payload carrying only a transaction signature. -/
def evSig (s : String) : Json :=
  .obj [("params", .obj [("result", .obj [("signature", .str s)])])]

def txEx : VersionedTransaction :=
  { signatures := [⟨1, 5, 99⟩], message := .legacy { recent_blockhash := 5, payload := 99 } }

def respOk (j : Json) : HttpResp := { status := 200, body := "", json := j }

def envDefault : EventEnv :=
  { quoteResp := respOk Json.null,
    swapResp := respOk (Json.obj [("swapTransaction", Json.str "AAAA")]),
    decodedTx := some txEx, latest := 42, sendResult := .ok "sent-sig" }

def envFail400 : EventEnv :=
  { envDefault with quoteResp := { status := 400, body := "Bad Request", json := Json.null } }

def cfgEx : TraderConfig :=
  { maxBuySol := 1 / 50, slippageBps := 500, mirrorBuysOnly := true, wallet := 7 }

def envOf (e : EventEnv) : ℕ → EventEnv := fun _ => e

/-- Drop the informational `mirror_buys_only` log line from a trace. -/
def stripBuyLog (acts : List TAct) : List TAct :=
  acts.foldr (fun a r => if a = TAct.buyOnlyLog then r else a :: r) []

/-! ## Lemmas -/

theorem selectLoop_cons (pre : List (String × ℚ)) (k : String) (v : ℚ)
    (rest : List (String × ℚ)) (best : Option (String × ℚ)) :
    selectLoop pre ((k, v) :: rest) best = selectLoop pre rest (selStep pre best (k, v)) := rfl

theorem selStep_of_not_qual {pre : List (String × ℚ)} {kv : String × ℚ}
    (h : ¬ qual pre kv) (best : Option (String × ℚ)) : selStep pre best kv = best := by
  unfold selStep qual at *
  by_cases h1 : deltaAt pre kv > 0
  · have h2 : deltaAt pre kv < dust := by
      by_contra hc
      exact h ⟨h1, hc⟩
    simp [h1, h2]
  · simp [h1]

theorem selStep_of_qual_none {pre : List (String × ℚ)} {kv : String × ℚ}
    (h : qual pre kv) : selStep pre none kv = some (kv.1, deltaAt pre kv) := by
  unfold selStep
  rcases h with ⟨h1, h2⟩
  simp [h1, h2]

theorem selStep_of_qual_some {pre : List (String × ℚ)} {kv : String × ℚ}
    (h : qual pre kv) (bm : String) (bd : ℚ) :
    selStep pre (some (bm, bd)) kv =
      if deltaAt pre kv > bd then some (kv.1, deltaAt pre kv) else some (bm, bd) := by
  unfold selStep
  rcases h with ⟨h1, h2⟩
  simp [h1, h2]

theorem selStep_eq_none_iff {pre : List (String × ℚ)} {kv : String × ℚ}
    {best : Option (String × ℚ)} :
    selStep pre best kv = none ↔ best = none ∧ ¬ qual pre kv := by
  by_cases hq : qual pre kv
  · cases best with
    | none => rw [selStep_of_qual_none hq]; simp [hq]
    | some b =>
      obtain ⟨bm, bd⟩ := b
      rw [selStep_of_qual_some hq]
      by_cases hgt : deltaAt pre kv > bd <;> simp [hgt, hq]
  · rw [selStep_of_not_qual hq]
    simp [hq]

theorem selectLoop_none_iff (pre : List (String × ℚ)) :
    ∀ (entries : List (String × ℚ)) (best : Option (String × ℚ)),
      selectLoop pre entries best = none ↔
        best = none ∧ ∀ kv ∈ entries, ¬ qual pre kv := by
  intro entries
  induction entries with
  | nil => intro best; simp [selectLoop]
  | cons kv rest ih =>
    intro best
    obtain ⟨k, v⟩ := kv
    rw [selectLoop_cons, ih, selStep_eq_none_iff]
    constructor
    · rintro ⟨⟨hb, hk⟩, hrest⟩
      refine ⟨hb, ?_⟩
      intro kv' hkv'
      rcases List.mem_cons.mp hkv' with h | h
      · rw [h]; exact hk
      · exact hrest kv' h
    · rintro ⟨hb, hall⟩
      exact ⟨⟨hb, hall (k, v) (List.mem_cons_self _ _)⟩,
        fun kv' h => hall kv' (List.mem_cons_of_mem _ h)⟩

theorem selectLoop_max (pre : List (String × ℚ)) :
    ∀ (entries : List (String × ℚ)) (best : Option (String × ℚ)) (t : String) (δ : ℚ),
      selectLoop pre entries best = some (t, δ) →
      (∀ kv ∈ entries, qual pre kv → deltaAt pre kv ≤ δ) ∧
      (∀ bm bd, best = some (bm, bd) → bd ≤ δ) := by
  intro entries
  induction entries with
  | nil =>
    intro best t δ h
    simp only [selectLoop] at h
    refine ⟨by simp, ?_⟩
    intro bm bd hb
    rw [hb] at h
    cases h
    exact le_refl _
  | cons kv rest ih =>
    intro best t δ h
    obtain ⟨k, v⟩ := kv
    rw [selectLoop_cons] at h
    have ihm := ih (selStep pre best (k, v)) t δ h
    constructor
    · intro kv' hkv' hq'
      rcases List.mem_cons.mp hkv' with hh | hh
      · subst hh
        cases best with
        | none =>
          rw [selStep_of_qual_none hq'] at ihm
          exact ihm.2 _ _ rfl
        | some b =>
          obtain ⟨bm, bd⟩ := b
          rw [selStep_of_qual_some hq'] at ihm
          by_cases hgt : deltaAt pre (k, v) > bd
          · rw [if_pos hgt] at ihm
            exact ihm.2 _ _ rfl
          · rw [if_neg hgt] at ihm
            exact le_trans (not_lt.mp hgt) (ihm.2 _ _ rfl)
      · exact ihm.1 kv' hh hq'
    · intro bm bd hb
      subst hb
      by_cases hq : qual pre (k, v)
      · rw [selStep_of_qual_some hq] at ihm
        by_cases hgt : deltaAt pre (k, v) > bd
        · rw [if_pos hgt] at ihm
          exact le_trans (le_of_lt hgt) (ihm.2 _ _ rfl)
        · rw [if_neg hgt] at ihm
          exact ihm.2 _ _ rfl
      · rw [selStep_of_not_qual hq] at ihm
        exact ihm.2 _ _ rfl

theorem selectLoop_origin (pre : List (String × ℚ)) :
    ∀ (entries : List (String × ℚ)) (best : Option (String × ℚ)) (t : String) (δ : ℚ),
      selectLoop pre entries best = some (t, δ) →
      best = some (t, δ) ∨
        ∃ v, (t, v) ∈ entries ∧ deltaAt pre (t, v) = δ ∧ qual pre (t, v) := by
  intro entries
  induction entries with
  | nil =>
    intro best t δ h
    simp only [selectLoop] at h
    exact Or.inl h
  | cons kv rest ih =>
    intro best t δ h
    obtain ⟨k, v⟩ := kv
    rw [selectLoop_cons] at h
    rcases ih (selStep pre best (k, v)) t δ h with hstep | ⟨v', hmem, hdelta, hq⟩
    · by_cases hq : qual pre (k, v)
      · cases best with
        | none =>
          rw [selStep_of_qual_none hq] at hstep
          cases hstep
          exact Or.inr ⟨v, List.mem_cons_self _ _, rfl, hq⟩
        | some b =>
          obtain ⟨bm, bd⟩ := b
          rw [selStep_of_qual_some hq] at hstep
          by_cases hgt : deltaAt pre (k, v) > bd
          · rw [if_pos hgt] at hstep
            cases hstep
            exact Or.inr ⟨v, List.mem_cons_self _ _, rfl, hq⟩
          · rw [if_neg hgt] at hstep
            exact Or.inl hstep
      · rw [selStep_of_not_qual hq] at hstep
        exact Or.inl hstep
    · exact Or.inr ⟨v', List.mem_cons_of_mem _ hmem, hdelta, hq⟩

theorem keysNodup_eq_of_mem {l : List (String × ℚ)} (h : keysNodup l) :
    ∀ {k : String} {v v' : ℚ}, (k, v) ∈ l → (k, v') ∈ l → v = v' := by
  induction l with
  | nil => intro k v v' h1; cases h1
  | cons a rest ih =>
    intro k v v' h1 h2
    obtain ⟨ak, av⟩ := a
    have hnd : ak ∉ rest.map Prod.fst ∧ keysNodup rest := by
      simpa [keysNodup] using h
    rcases List.mem_cons.mp h1 with e1 | m1 <;> rcases List.mem_cons.mp h2 with e2 | m2
    · cases e1; cases e2; rfl
    · cases e1
      exact absurd (List.mem_map_of_mem Prod.fst m2) hnd.1
    · cases e2
      exact absurd (List.mem_map_of_mem Prod.fst m1) hnd.1
    · exact ih hnd.2 m1 m2

theorem selectLoop_strictMax (pre entries : List (String × ℚ)) (t : String) (v : ℚ)
    (hnd : keysNodup entries) (hmem : (t, v) ∈ entries) (hq : qual pre (t, v))
    (hmax : ∀ kv ∈ entries, kv.1 ≠ t → qual pre kv →
      deltaAt pre kv < deltaAt pre (t, v)) :
    selectLoop pre entries none = some (t, deltaAt pre (t, v)) := by
  rcases hres : selectLoop pre entries none with _ | ⟨t', δ'⟩
  · rcases (selectLoop_none_iff pre entries none).mp hres with ⟨_, hall⟩
    exact absurd hq (hall (t, v) hmem)
  · rcases selectLoop_origin pre entries none t' δ' hres with hbad | ⟨v', hmem', hdelta', hq'⟩
    · cases hbad
    · have hle : deltaAt pre (t, v) ≤ δ' :=
        (selectLoop_max pre entries none t' δ' hres).1 (t, v) hmem hq
      by_cases he : t' = t
      · subst he
        have : v' = v := keysNodup_eq_of_mem hnd hmem' hmem
        subst this
        rw [hdelta']
      · have hlt : deltaAt pre (t', v') < deltaAt pre (t, v) :=
          hmax (t', v') hmem' he hq'
        rw [hdelta'] at hlt
        exact absurd hle (not_le.mpr hlt)

/-! ## Map construction facts and bridge lemmas -/

theorem keysNodup_cons {a : String × ℚ} {l : List (String × ℚ)} :
    keysNodup (a :: l) ↔ a.1 ∉ l.map Prod.fst ∧ keysNodup l := by
  unfold keysNodup
  rw [List.map_cons, List.nodup_cons]

theorem mem_keys_insertAssoc {m : List (String × ℚ)} {k k' : String} {v : ℚ}
    (h : k' ∈ (insertAssoc m k v).map Prod.fst) :
    k' = k ∨ k' ∈ m.map Prod.fst := by
  induction m with
  | nil =>
    simp [insertAssoc] at h
    exact Or.inl h
  | cons a rest ih =>
    obtain ⟨ak, av⟩ := a
    by_cases he : ak = k
    · subst he
      simp only [insertAssoc, if_pos rfl, ite_true, eq_self_iff_true,
        List.map_cons, List.mem_cons] at h ⊢
      tauto
    · simp only [insertAssoc, if_neg he, List.map_cons, List.mem_cons] at h ⊢
      rcases h with h | h
      · tauto
      · rcases ih h with h1 | h2 <;> tauto

theorem insertAssoc_keysNodup {m : List (String × ℚ)} (h : keysNodup m)
    (k : String) (v : ℚ) : keysNodup (insertAssoc m k v) := by
  induction m with
  | nil => simp [insertAssoc, keysNodup]
  | cons a rest ih =>
    obtain ⟨ak, av⟩ := a
    rw [keysNodup_cons] at h
    by_cases he : ak = k
    · subst he
      rw [show insertAssoc ((ak, av) :: rest) ak v = (ak, v) :: rest from by
        simp [insertAssoc]]
      rw [keysNodup_cons]
      exact ⟨h.1, h.2⟩
    · rw [show insertAssoc ((ak, av) :: rest) k v = (ak, av) :: insertAssoc rest k v from by
        simp [insertAssoc, he]]
      rw [keysNodup_cons]
      refine ⟨?_, ih h.2⟩
      intro hmem
      rcases mem_keys_insertAssoc hmem with h1 | h2
      · exact he h1
      · exact h.1 h2

theorem buildMap_keysNodup (xs : List Json) : keysNodup (buildMap xs) := by
  have haux : ∀ (ys : List Json) (acc : List (String × ℚ)), keysNodup acc →
      keysNodup (ys.foldl
        (fun m x => match entryOf x with | some (k, v) => insertAssoc m k v | none => m)
        acc) := by
    intro ys
    induction ys with
    | nil => intro acc hacc; exact hacc
    | cons y rest ih =>
      intro acc hacc
      simp only [List.foldl_cons]
      rcases hy : entryOf y with _ | ⟨k, v⟩
      · simpa [hy] using ih acc hacc
      · simpa [hy] using ih (insertAssoc acc k v) (insertAssoc_keysNodup hacc k v)
  exact haux xs [] (by simp [keysNodup])

theorem postMapOf_keysNodup (msg : Json) : keysNodup (postMapOf msg) := by
  unfold postMapOf
  rcases metaOf msg with _ | meta
  · simp [keysNodup]
  · exact buildMap_keysNodup _

theorem infer_eq_core (msg : Json) (m : ℚ) :
    infer_intent_from_tx msg m = infer_core (preMapOf msg) (postMapOf msg) m := by
  rcases hr : getTxResult msg with _ | r
  · simp [infer_intent_from_tx, preMapOf, postMapOf, metaOf, hr, infer_core, selectLoop]
  · rcases hm : r.get "meta" with _ | meta
    · simp [infer_intent_from_tx, preMapOf, postMapOf, metaOf, hr, hm, infer_core,
        selectLoop]
    · simp [infer_intent_from_tx, preMapOf, postMapOf, metaOf, hr, hm]

theorem dust_pos : 0 < dust := by norm_num [dust]

theorem qual_iff_dust_le (pre : List (String × ℚ)) (kv : String × ℚ) :
    qual pre kv ↔ dust ≤ deltaAt pre kv := by
  constructor
  · rintro ⟨_, h2⟩
    exact not_lt.mp h2
  · intro h
    exact ⟨lt_of_lt_of_le dust_pos h, not_lt.mpr h⟩

theorem mem_postTokenDeltas {msg : Json} {t : String} {δ : ℚ} :
    (t, δ) ∈ postTokenDeltas msg ↔
      ∃ v, (t, v) ∈ postMapOf msg ∧ deltaAt (preMapOf msg) (t, v) = δ := by
  unfold postTokenDeltas
  rw [List.mem_map]
  constructor
  · rintro ⟨⟨a, b⟩, hmem, heq⟩
    have ha : a = t := congrArg Prod.fst heq
    subst ha
    exact ⟨b, hmem, congrArg Prod.snd heq⟩
  · rintro ⟨v, hmem, heq⟩
    exact ⟨(t, v), hmem, by rw [heq]⟩

/-- Shape of the inference result: never a `Sell`; a `Buy` carries the
given amount verbatim and a mint drawn from a qualifying post-map entry. -/
theorem infer_shape (msg : Json) (m : ℚ) :
    (∀ p a, infer_intent_from_tx msg m = .ok (some (.buy p a)) →
      a = m ∧ ∃ t v, (t, v) ∈ postMapOf msg ∧ qual (preMapOf msg) (t, v) ∧
        pubkeyFromStr t = some p) ∧
    (∀ t f, infer_intent_from_tx msg m ≠ .ok (some (.sell t f))) := by
  rw [infer_eq_core]
  unfold infer_core
  rcases hsel : selectLoop (preMapOf msg) (postMapOf msg) none with _ | ⟨mint, δ⟩
  · constructor
    · intro p a h
      simp at h
    · intro t f h
      simp at h
  · rcases hpk : pubkeyFromStr mint with _ | p0
    · simp only [hpk]
      constructor
      · intro p a h
        simp at h
      · intro t f h
        simp at h
    · simp only [hpk]
      constructor
      · intro p a h
        rw [Except.ok.injEq, Option.some.injEq, MirrorIntent.buy.injEq] at h
        obtain ⟨hp, ha⟩ := h
        rcases selectLoop_origin _ _ _ _ _ hsel with hbad | ⟨v, hmem, _, hq⟩
        · cases hbad
        · exact ⟨ha.symm, mint, v, hmem, hq, by rw [hpk, hp]⟩
      · intro t f h
        simp at h


/-! ## Claim theorems -/

/-- C4: `sol_to_lamports` rejects an amount exactly when it lies outside
`0 ≤ x ≤ 1000` SOL; otherwise it returns `round(x * 1e9)`; input `0.02`
yields exactly `20_000_000`, and `-1` and `1001` are rejected. -/
theorem sol_to_lamports_spec :
    (∀ x : ℚ, (∃ e, sol_to_lamports x = .error e) ↔ ¬ (0 ≤ x ∧ x ≤ 1000))
    ∧ (∀ x : ℚ, 0 ≤ x → x ≤ 1000 →
        sol_to_lamports x = .ok (rustRound (x * 1000000000)).toNat)
    ∧ sol_to_lamports (1 / 50) = .ok 20000000
    ∧ (∃ e, sol_to_lamports (-1) = .error e)
    ∧ (∃ e, sol_to_lamports 1001 = .error e) := by
  refine ⟨?_, ?_, by decide, ⟨"SOL amount out of safe range", by decide⟩,
    ⟨"SOL amount out of safe range", by decide⟩⟩
  · intro x
    by_cases hb : 0 ≤ x ∧ x ≤ 1000 <;> simp [sol_to_lamports, hb]
  · intro x h0 h1
    have hnn : (0 : ℚ) ≤ x * 1000000000 := by positivity
    have hfl : rustRound (x * 1000000000) ≤ 10 ^ 12 := by
      rw [rustRound, if_pos hnn]
      have hr : x * 1000000000 + 1 / 2 < ((10 ^ 12 + 1 : ℤ) : ℚ) := by
        push_cast
        nlinarith
      have hlt := Int.floor_lt.mpr hr
      omega
    rw [sol_to_lamports, if_pos ⟨h0, h1⟩]
    congr 1
    rw [u64Cast]
    refine min_eq_left ?_
    have h2 : (rustRound (x * 1000000000)).toNat ≤ ((10 : ℤ) ^ 12).toNat :=
      Int.toNat_le_toNat hfl
    exact le_trans h2 (by norm_num)

/-- C4 witness: the round-trip equation instantiated at `0.02`. -/
theorem sol_to_lamports_spec_witness :
    sol_to_lamports (1 / 50) = .ok (rustRound ((1 / 50) * 1000000000)).toNat :=
  sol_to_lamports_spec.2.1 (1 / 50) (by decide) (by decide)

/-- C5: after the refresh-and-resign steps, the transaction's recent
blockhash equals the freshly fetched value for both message encodings, the
message encoding and remaining content are preserved, the transaction
carries exactly one signature — the operator's, over the updated message —
and any previously present signature survives only if it coincides with
that fresh signature (it is discarded, not merged). -/
theorem blockhash_refresh_and_resign :
    ∀ (wallet : ℕ) (tx : VersionedTransaction) (latest : ℕ),
      msgBlockhash (refreshAndSign wallet tx latest).message = latest
      ∧ msgPayload (refreshAndSign wallet tx latest).message = msgPayload tx.message
      ∧ isLegacy (refreshAndSign wallet tx latest).message = isLegacy tx.message
      ∧ (refreshAndSign wallet tx latest).signatures =
          [⟨wallet, latest, msgPayload tx.message⟩]
      ∧ (msgBlockhash tx.message ≠ latest →
          msgBlockhash (refreshAndSign wallet tx latest).message ≠ msgBlockhash tx.message)
      ∧ (∀ s ∈ tx.signatures, s ∈ (refreshAndSign wallet tx latest).signatures →
          s = ⟨wallet, latest, msgPayload tx.message⟩) := by
  intro wallet tx latest
  obtain ⟨sigs, msg⟩ := tx
  cases msg with
  | legacy mm =>
    obtain ⟨bh, pl⟩ := mm
    exact ⟨rfl, rfl, rfl, rfl, fun hne heq => hne heq.symm,
      fun s _ hmem => List.mem_singleton.mp hmem⟩
  | v0 mm =>
    obtain ⟨bh, pl⟩ := mm
    exact ⟨rfl, rfl, rfl, rfl, fun hne heq => hne heq.symm,
      fun s _ hmem => List.mem_singleton.mp hmem⟩

/-- C5 witness: a concrete legacy transaction with a stale blockhash and an
old signature is refreshed to the fetched value. -/
theorem blockhash_refresh_and_resign_witness :
    msgBlockhash (refreshAndSign 7 txEx 42).message = 42
    ∧ msgBlockhash (refreshAndSign 7 txEx 42).message ≠ msgBlockhash txEx.message :=
  ⟨(blockhash_refresh_and_resign 7 txEx 42).1,
   (blockhash_refresh_and_resign 7 txEx 42).2.2.2.2.1 (by decide)⟩

/-- C1 counterexample: on a payload whose single post-token delta is
exactly the dust threshold `1e-7` — so no delta is strictly greater than
the threshold — inference still treats the token as a buy candidate and
returns a `Buy`, not `None`. -/
theorem intent_dust_boundary_cex :
    postTokenDeltas cexDustEvent = [(mintB, dust)]
    ∧ ¬ dust > dust
    ∧ infer_intent_from_tx cexDustEvent (1 / 50) = .ok (some (.buy pkB (1 / 50)))
    ∧ infer_intent_from_tx cexDustEvent (1 / 50) ≠ .ok none := by
  refine ⟨by decide, by decide, by decide, ?_⟩
  intro h
  rw [show infer_intent_from_tx cexDustEvent (1 / 50)
      = .ok (some (.buy pkB (1 / 50))) from by decide] at h
  cases h

/-- C1 (amended): the candidacy threshold is `delta ≥ 1e-7`, not
`delta > 1e-7`: every returned `Buy` token has a post-transaction delta of
at least the dust threshold, and inference returns `Ok(None)` whenever no
post-transaction token has a delta of at least `1e-7`. -/
theorem intent_dust_threshold_ge :
    (∀ (e : Json) (m : ℚ) (p : Pubkey) (a : ℚ),
      infer_intent_from_tx e m = .ok (some (.buy p a)) →
      ∃ t δ, (t, δ) ∈ postTokenDeltas e ∧ dust ≤ δ ∧ pubkeyFromStr t = some p)
    ∧ (∀ (e : Json) (m : ℚ), (∀ kv ∈ postTokenDeltas e, kv.2 < dust) →
      infer_intent_from_tx e m = .ok none) := by
  constructor
  · intro e m p a h
    obtain ⟨-, t, v, hmem, hq, hpk⟩ := (infer_shape e m).1 p a h
    refine ⟨t, deltaAt (preMapOf e) (t, v), ?_, ?_, hpk⟩
    · exact mem_postTokenDeltas.mpr ⟨v, hmem, rfl⟩
    · exact (qual_iff_dust_le _ _).mp hq
  · intro e m hall
    rw [infer_eq_core, infer_core]
    have hnone : selectLoop (preMapOf e) (postMapOf e) none = none := by
      rw [selectLoop_none_iff]
      refine ⟨rfl, ?_⟩
      intro kv hkv hq
      have hdelta : (kv.1, deltaAt (preMapOf e) kv) ∈ postTokenDeltas e :=
        mem_postTokenDeltas.mpr ⟨kv.2, hkv, rfl⟩
      have hlt := hall _ hdelta
      exact absurd ((qual_iff_dust_le _ _).mp hq) (not_le.mpr hlt)
    rw [hnone]

/-- C1 witness: the amended no-candidate clause applied to a payload with
no token deltas at all. -/
theorem intent_dust_threshold_ge_witness :
    infer_intent_from_tx Json.null 1 = .ok none :=
  intent_dust_threshold_ge.2 Json.null 1 (by decide)

/-- C6: on the spec's example (pre A:1; post A:1, B:0.5, C:0.6) inference
buys `C`; every returned `Buy` carries the configured max-buy amount
verbatim; and whenever one candidate's delta strictly dominates all other
candidates', that token (if its mint parses) is the one bought. -/
theorem intent_max_delta_selection :
    (∀ m : ℚ, infer_intent_from_tx exABC m = .ok (some (.buy pkC m)))
    ∧ (∀ (e : Json) (m : ℚ) (p : Pubkey) (a : ℚ),
        infer_intent_from_tx e m = .ok (some (.buy p a)) → a = m)
    ∧ (∀ (e : Json) (m : ℚ) (t : String) (v : ℚ) (p : Pubkey),
        (t, v) ∈ postMapOf e → qual (preMapOf e) (t, v) →
        (∀ kv ∈ postMapOf e, kv.1 ≠ t → qual (preMapOf e) kv →
          deltaAt (preMapOf e) kv < deltaAt (preMapOf e) (t, v)) →
        pubkeyFromStr t = some p →
        infer_intent_from_tx e m = .ok (some (.buy p m))) := by
  refine ⟨fun m => rfl, ?_, ?_⟩
  · intro e m p a h
    exact ((infer_shape e m).1 p a h).1
  · intro e m t v p hmem hq hmax hpk
    have hsel := selectLoop_strictMax (preMapOf e) (postMapOf e) t v
      (postMapOf_keysNodup e) hmem hq hmax
    rw [infer_eq_core, infer_core, hsel]
    simp only [hpk]

/-- C6 witness: the strict-max clause instantiated on the example payload
(C has delta 0.6, strictly above B's 0.5). -/
theorem intent_max_delta_selection_witness :
    infer_intent_from_tx exABC (1 / 50) = .ok (some (.buy pkC (1 / 50))) :=
  intent_max_delta_selection.2.2 exABC (1 / 50) mintC (3 / 5) pkC
    (by decide) (by decide) (by decide) (by decide)

/-- C9 counterexample: two iteration orders of the same post-balance map
content (a permutation pair) with tied maximal deltas make inference buy
different tokens, so the output is not determined by the payload alone. -/
theorem intent_tie_order_cex :
    ([(mintA, (1 : ℚ) / 2), (mintB, 1 / 2)]).Perm [(mintB, (1 : ℚ) / 2), (mintA, 1 / 2)]
    ∧ infer_core [] [(mintA, (1 : ℚ) / 2), (mintB, 1 / 2)] 1 = .ok (some (.buy pkA 1))
    ∧ infer_core [] [(mintB, (1 : ℚ) / 2), (mintA, 1 / 2)] 1 = .ok (some (.buy pkB 1))
    ∧ infer_core [] [(mintA, (1 : ℚ) / 2), (mintB, 1 / 2)] 1
        ≠ infer_core [] [(mintB, (1 : ℚ) / 2), (mintA, 1 / 2)] 1 :=
  ⟨List.Perm.swap _ _ _, by decide, by decide, by decide⟩

/-- C9 (amended): inference is free of I/O and mutation and is a pure
function of the payload, the amount, and the post-map iteration order;
its output is iteration-order independent whenever one candidate's delta
strictly dominates all other candidates', but with tied maximal deltas it
depends on the order, which the payload does not determine. -/
theorem infer_pure_deterministic :
    (∀ (e₁ e₂ : Json) (m₁ m₂ : ℚ), e₁ = e₂ → m₁ = m₂ →
      infer_intent_from_tx e₁ m₁ = infer_intent_from_tx e₂ m₂)
    ∧ (∀ (pre L₁ L₂ : List (String × ℚ)) (m : ℚ) (t : String) (v : ℚ),
        L₁.Perm L₂ → keysNodup L₁ → (t, v) ∈ L₁ → qual pre (t, v) →
        (∀ kv ∈ L₁, kv.1 ≠ t → qual pre kv → deltaAt pre kv < deltaAt pre (t, v)) →
        infer_core pre L₁ m = infer_core pre L₂ m) := by
  constructor
  · intro e₁ e₂ m₁ m₂ he hm
    rw [he, hm]
  · intro pre L₁ L₂ m t v hperm hnd hmem hq hmax
    have h1 := selectLoop_strictMax pre L₁ t v hnd hmem hq hmax
    have hnd2 : keysNodup L₂ := by
      unfold keysNodup at *
      exact ((hperm.map Prod.fst).nodup_iff).mp hnd
    have h2 := selectLoop_strictMax pre L₂ t v hnd2 (hperm.mem_iff.mp hmem) hq
      (fun kv hkv => hmax kv (hperm.mem_iff.mpr hkv))
    rw [infer_core, infer_core, h1, h2]

/-- C9 witness: order-independence applied to a pair of iteration orders
whose maximal delta is unique. -/
theorem infer_pure_deterministic_witness :
    infer_core [] [(mintA, (1 : ℚ)), (mintB, 1 / 2)] 1
      = infer_core [] [(mintB, (1 : ℚ) / 2), (mintA, 1)] 1 :=
  infer_pure_deterministic.2 [] _ _ 1 mintA 1
    (List.Perm.swap _ _ _) (by decide) (by decide) (by decide) (by decide)

/-- Helper: the buy-execution chain emits only buy-side actions — it never
emits the sell log. -/
theorem sellLog_not_mem_execBuy (cfg : TraderConfig) (env : EventEnv)
    (mint : Pubkey) (maxSol : ℚ) : TAct.sellLog ∉ (execBuy cfg env mint maxSol).1 := by
  unfold execBuy
  rcases hl : sol_to_lamports maxSol with e2 | lam <;>
    rcases hq : jupiter_quote env.quoteResp with e3 | q <;>
    rcases hs : jupiter_swap_tx env.swapResp with e4 | b64 <;>
    rcases hsend : signAndSendSwap cfg.wallet env.decodedTx env.latest env.sendResult
      with e5 | s2 <;>
    by_cases hflag : cfg.mirrorBuysOnly <;>
    simp [hl, hq, hs, hsend, hflag]

/-- Helper for C10: the post-dedup loop body never emits the sell log
unless inference yields a `Sell`, which it cannot. -/
theorem sellLog_not_mem_processMsg (cfg : TraderConfig) (st : Option String)
    (msg : Json) (env : EventEnv) : TAct.sellLog ∉ (processMsg cfg st msg env).2.1 := by
  unfold processMsg processMsgActs
  rcases hinf : infer_intent_from_tx msg cfg.maxBuySol
    with e | (_ | (⟨mint, a⟩ | ⟨t, f⟩)) <;> simp only [hinf]
  all_goals first
    | exact absurd hinf ((infer_shape msg cfg.maxBuySol).2 _ _)
    | simp [sellLog_not_mem_execBuy]

/-- C10: inference never produces a `Sell` intent — its result is an error,
`Ok(None)`, or `Ok(Some(Buy ...))` — so the orchestrator's `Sell` arm is
unreachable: no loop iteration ever emits the sell log action. -/
theorem infer_never_sell :
    (∀ (e : Json) (m : ℚ) (t : Pubkey) (f : ℚ),
      infer_intent_from_tx e m ≠ .ok (some (.sell t f)))
    ∧ (∀ (cfg : TraderConfig) (st : Option String) (msg : Json) (env : EventEnv),
      TAct.sellLog ∉ (stepTrader cfg st msg env).2.1) := by
  constructor
  · intro e m t f
    exact (infer_shape e m).2 t f
  · intro cfg st msg env
    unfold stepTrader
    rcases hsig : extractSig msg with _ | s <;> simp only [hsig]
    · exact sellLog_not_mem_processMsg cfg st msg env
    · by_cases hst : st = some s
      · simp [hst]
      · simp only [if_neg hst]
        exact sellLog_not_mem_processMsg cfg (some s) msg env

/-- C10 witness: both clauses at a concrete payload and environment. -/
theorem infer_never_sell_witness :
    infer_intent_from_tx Json.null 1 ≠ .ok (some (.sell pkA 0))
    ∧ TAct.sellLog ∉ (stepTrader cfgEx none Json.null envDefault).2.1 :=
  ⟨infer_never_sell.1 Json.null 1 pkA 0,
   infer_never_sell.2 cfgEx none Json.null envDefault⟩


/-- Helper: the loop body never changes `last_sig`; signature tracking
happens in the guard before the body runs. -/
theorem processMsg_state (cfg : TraderConfig) (st : Option String) (msg : Json)
    (env : EventEnv) : (processMsg cfg st msg env).1 = st := rfl

/-- Helper: a processed (non-skipped) event always records the inference
call as its first action. -/
theorem processMsg_starts_inferCall (cfg : TraderConfig) (st : Option String)
    (msg : Json) (env : EventEnv) :
    ∃ rest, (processMsg cfg st msg env).2.1 = TAct.inferCall :: rest := by
  unfold processMsg processMsgActs
  rcases hinf : infer_intent_from_tx msg cfg.maxBuySol
    with e | (_ | (⟨mint, a⟩ | ⟨t, f⟩)) <;> simp only [hinf] <;> exact ⟨_, rfl⟩

/-- Helper: the `last_sig` value after one iteration is the event's
signature when it has one, the previous value otherwise. -/
theorem stepTrader_state (cfg : TraderConfig) (st : Option String) (msg : Json)
    (env : EventEnv) :
    (stepTrader cfg st msg env).1 =
      match extractSig msg with
      | some s => some s
      | none => st := by
  unfold stepTrader
  rcases hsig : extractSig msg with _ | s <;> simp only [hsig]
  · exact processMsg_state cfg st msg env
  · by_cases hst : st = some s
    · simp [hst]
    · simp only [if_neg hst]
      exact processMsg_state cfg (some s) msg env

/-- C2 counterexample: in the signature sequence A, B, A the third event's
signature equals the first (earlier) event's, yet it is fully processed —
inference is called on it — because dedup compares only against the
immediately preceding seen signature.  (With the consecutive sequence A, A
the second event is skipped, shown by its empty action trace.) -/
theorem dedup_nonconsecutive_cex :
    extractSig (evSig "A") = some "A"
    ∧ extractSig (evSig "B") = some "B"
    ∧ (traderRun cfgEx (envOf envDefault) none 0 [evSig "A", evSig "B", evSig "A"]).1
        = [[.inferCall], [.inferCall], [.inferCall]]
    ∧ (traderRun cfgEx (envOf envDefault) none 0 [evSig "A", evSig "A"]).1
        = [[.inferCall], []] :=
  ⟨by decide, by decide, by decide, by decide⟩

/-- C2 (amended): dedup is against the most recently seen signature only:
an event is skipped — empty action trace, no inference call — exactly when
it carries a signature equal to the currently tracked `last_sig`; events
without an extractable signature are never skipped; and the tracked value
is the fold over earlier events' signatures (events without one leave it
unchanged). -/
theorem dedup_last_seen :
    (∀ (cfg : TraderConfig) (st : Option String) (msg : Json) (env : EventEnv),
      (stepTrader cfg st msg env).2.1 = [] ↔
        ∃ s, extractSig msg = some s ∧ st = some s)
    ∧ (∀ (cfg : TraderConfig) (env : ℕ → EventEnv) (st : Option String) (i : ℕ)
        (events : List Json),
        (traderRun cfg env st i events).2.2 = false →
        (traderRun cfg env st i events).2.1 = lastSigFold st events) := by
  constructor
  · intro cfg st msg env
    unfold stepTrader
    rcases hsig : extractSig msg with _ | s <;> simp only [hsig]
    · obtain ⟨rest, hr⟩ := processMsg_starts_inferCall cfg st msg env
      simp [hr]
    · by_cases hst : st = some s
      · simp [hst]
      · simp only [if_neg hst]
        obtain ⟨rest, hr⟩ := processMsg_starts_inferCall cfg (some s) msg env
        simp [hr, hst]
  · intro cfg env st i events
    induction events generalizing st i with
    | nil => intro _; rfl
    | cons msg rest ih =>
      intro habort
      rcases hr : stepTrader cfg st msg (env i) with ⟨st', acts, ab⟩
      have hst' : st' = match extractSig msg with
          | some s => some s
          | none => st := by
        have h := stepTrader_state cfg st msg (env i)
        rw [hr] at h
        exact h
      have hfold : lastSigFold st (msg :: rest) = lastSigFold st' rest := by
        unfold lastSigFold
        rw [List.foldl_cons]
        congr 1
        exact hst'.symm
      cases ab with
      | true =>
        exfalso
        have hbad : (traderRun cfg env st i (msg :: rest)).2.2 = true := by
          simp [traderRun, hr]
        rw [habort] at hbad
        cases hbad
      | false =>
        have habort' : (traderRun cfg env st' (i + 1) rest).2.2 = false := by
          have h := habort
          simp only [traderRun, hr] at h
          simpa using h
        have hih := ih st' (i + 1) habort'
        rw [hfold, ← hih]
        simp only [traderRun, hr]
        simp

/-- C2 witness: the state-fold clause at a concrete one-event run. -/
theorem dedup_last_seen_witness :
    (traderRun cfgEx (envOf envDefault) none 0 [evSig "A"]).2.1
      = lastSigFold none [evSig "A"] :=
  dedup_last_seen.2 cfgEx (envOf envDefault) none 0 [evSig "A"] (by decide)

/-- Helper: an event that does not match the dedup guard contributes the
full loop-body actions. -/
theorem stepTrader_acts_not_skipped (cfg : TraderConfig) (st : Option String)
    (msg : Json) (env : EventEnv)
    (h : ¬ ∃ s, extractSig msg = some s ∧ st = some s) :
    (stepTrader cfg st msg env).2 = processMsgActs cfg msg env := by
  unfold stepTrader
  cases hsig : extractSig msg with
  | none => simp only [hsig]; rfl
  | some s =>
    simp only [hsig]
    have hne : st ≠ some s := fun he => h ⟨s, hsig, he⟩
    rw [if_neg hne]
    rfl

/-- Helper: the buy chain under a failing quote: the informational-log
prefix, the quote call, and the quote error carrying the response body —
nothing else, and no loop abort. -/
theorem execBuy_quote_failure (cfg : TraderConfig) (env : EventEnv) (mint : Pubkey)
    (maxSol : ℚ) (lam : ℕ) (hl : sol_to_lamports maxSol = .ok lam)
    (hq : ¬ isSuccess env.quoteResp.status) :
    execBuy cfg env mint maxSol =
      ((if cfg.mirrorBuysOnly then [] else [TAct.buyOnlyLog]) ++
        [TAct.quoteCall SOL_MINT mint lam cfg.slippageBps,
         TAct.quoteErr ("Jupiter quote failed: " ++ env.quoteResp.body)], false) := by
  have hqe : jupiter_quote env.quoteResp
      = .error ("Jupiter quote failed: " ++ env.quoteResp.body) := by
    rw [jupiter_quote, if_neg hq]
  unfold execBuy
  simp [hl, hqe]

/-- C7: a non-success quote response surfaces the response body as the
error detail; the event's execution then stops — the quote call happened
but no swap-build call and no submission occur — and the loop continues
(no abort) to the next stream event. -/
theorem quote_failure_aborts_event :
    (∀ resp : HttpResp, ¬ isSuccess resp.status →
      jupiter_quote resp = .error ("Jupiter quote failed: " ++ resp.body))
    ∧ (∀ (cfg : TraderConfig) (st : Option String) (msg : Json) (env : EventEnv)
        (p : Pubkey) (a : ℚ) (lam : ℕ),
        infer_intent_from_tx msg cfg.maxBuySol = .ok (some (.buy p a)) →
        ¬ (∃ s, extractSig msg = some s ∧ st = some s) →
        sol_to_lamports a = .ok lam →
        ¬ isSuccess env.quoteResp.status →
        TAct.quoteErr ("Jupiter quote failed: " ++ env.quoteResp.body)
            ∈ (stepTrader cfg st msg env).2.1
        ∧ TAct.quoteCall SOL_MINT p lam cfg.slippageBps ∈ (stepTrader cfg st msg env).2.1
        ∧ TAct.swapCall ∉ (stepTrader cfg st msg env).2.1
        ∧ TAct.sendCall ∉ (stepTrader cfg st msg env).2.1
        ∧ (stepTrader cfg st msg env).2.2 = false) := by
  constructor
  · intro resp h
    rw [jupiter_quote, if_neg h]
  · intro cfg st msg env p a lam hinf hskip hl hq
    have hacts := stepTrader_acts_not_skipped cfg st msg env hskip
    have hpm : processMsgActs cfg msg env
        = (TAct.inferCall :: (execBuy cfg env p a).1, (execBuy cfg env p a).2) := by
      unfold processMsgActs
      simp only [hinf]
    have hexec := execBuy_quote_failure cfg env p a lam hl hq
    rw [show (stepTrader cfg st msg env).2.1 = (stepTrader cfg st msg env).2.1 from rfl]
    rw [hacts, hpm, hexec]
    by_cases hflag : cfg.mirrorBuysOnly <;> simp [hflag]

/-- C7 witness: a 400 quote response on a concrete buy event records the
body-carrying error, makes no swap call, and does not abort the loop. -/
theorem quote_failure_aborts_event_witness :
    TAct.quoteErr ("Jupiter quote failed: " ++ "Bad Request")
        ∈ (stepTrader cfgEx none cexDustEvent envFail400).2.1
    ∧ TAct.swapCall ∉ (stepTrader cfgEx none cexDustEvent envFail400).2.1
    ∧ (stepTrader cfgEx none cexDustEvent envFail400).2.2 = false := by
  have h := quote_failure_aborts_event.2 cfgEx none cexDustEvent envFail400 pkB (1 / 50)
    20000000 (by decide) (fun ⟨_, _, hn⟩ => Option.noConfusion hn) (by decide) (by decide)
  exact ⟨h.1, h.2.2.1, h.2.2.2.2⟩

theorem stripBuyLog_cons (a : TAct) (l : List TAct) :
    stripBuyLog (a :: l) =
      if a = TAct.buyOnlyLog then stripBuyLog l else a :: stripBuyLog l := rfl

/-- Helper: the buy chain's actions with the flag flipped differ only in
the informational log line, and the abort flag is unaffected. -/
theorem execBuy_flag_invariant (mb : ℚ) (sl : ℕ) (flag b : Bool) (w : ℕ)
    (env : EventEnv) (mint : Pubkey) (maxSol : ℚ) :
    stripBuyLog (execBuy ⟨mb, sl, b, w⟩ env mint maxSol).1
        = stripBuyLog (execBuy ⟨mb, sl, flag, w⟩ env mint maxSol).1
    ∧ (execBuy ⟨mb, sl, b, w⟩ env mint maxSol).2
        = (execBuy ⟨mb, sl, flag, w⟩ env mint maxSol).2 := by
  unfold execBuy
  dsimp only
  rcases hl : sol_to_lamports maxSol with e2 | lam <;>
    rcases hq : jupiter_quote env.quoteResp with e3 | q <;>
    rcases hs : jupiter_swap_tx env.swapResp with e4 | b64 <;>
    rcases hsend : signAndSendSwap w env.decodedTx env.latest env.sendResult
      with e5 | s2 <;>
    cases b <;> cases flag <;>
    simp [hl, hq, hs, hsend, stripBuyLog, stripBuyLog_cons]

/-- Helper: the loop body with the flag flipped has the same trace modulo
the informational log line, and the same abort flag. -/
theorem processMsg_flag_invariant (cfg : TraderConfig) (b : Bool) (st : Option String)
    (msg : Json) (env : EventEnv) :
    stripBuyLog (processMsg { cfg with mirrorBuysOnly := b } st msg env).2.1
        = stripBuyLog (processMsg cfg st msg env).2.1
    ∧ (processMsg { cfg with mirrorBuysOnly := b } st msg env).2.2
        = (processMsg cfg st msg env).2.2 := by
  obtain ⟨mb, sl, flag, w⟩ := cfg
  unfold processMsg processMsgActs
  dsimp only
  rcases hinf : infer_intent_from_tx msg mb with e | (_ | (⟨mint, a⟩ | ⟨t, f⟩)) <;>
    simp only [hinf]
  all_goals first
    | trivial
    | (refine ⟨?_, (execBuy_flag_invariant mb sl flag b w env mint a).2⟩
       rw [stripBuyLog_cons, stripBuyLog_cons]
       simp [(execBuy_flag_invariant mb sl flag b w env mint a).1])

/-- C8: the `mirror_buys_only` flag has no gating effect: two loop
iterations differing only in that flag keep the same signature state, the
same quote / swap-build / send actions (the traces agree once the
informational log line is dropped), and the same abort behavior. -/
theorem mirror_flag_no_gating :
    ∀ (cfg : TraderConfig) (b : Bool) (st : Option String) (msg : Json) (env : EventEnv),
      (stepTrader { cfg with mirrorBuysOnly := b } st msg env).1
          = (stepTrader cfg st msg env).1
      ∧ stripBuyLog (stepTrader { cfg with mirrorBuysOnly := b } st msg env).2.1
          = stripBuyLog (stepTrader cfg st msg env).2.1
      ∧ (stepTrader { cfg with mirrorBuysOnly := b } st msg env).2.2
          = (stepTrader cfg st msg env).2.2 := by
  intro cfg b st msg env
  have hpm := processMsg_flag_invariant cfg b st msg env
  unfold stepTrader
  cases hsig : extractSig msg with
  | none =>
    simp only [hsig]
    exact ⟨rfl, (processMsg_flag_invariant cfg b st msg env).1,
      (processMsg_flag_invariant cfg b st msg env).2⟩
  | some s =>
    simp only [hsig]
    by_cases hst : st = some s
    · simp [hst]
    · simp only [if_neg hst]
      exact ⟨rfl, (processMsg_flag_invariant cfg b (some s) msg env).1,
        (processMsg_flag_invariant cfg b (some s) msg env).2⟩

/-- C3 evidence: `connect_forever` retries a refused connection (one
3-second sleep per failure) and hands the loop the first established
stream; but when that stream ends — the socket closing after delivering a
single event — the orchestrator processes what was delivered and
terminates normally: the run returns with no abort and no reconnection is
ever attempted. -/
theorem ws_close_terminates :
    connectForever [.error "connection refused", .ok [evSig "A"]]
        = some (1, [evSig "A"])
    ∧ runCopyTrader cfgEx (envOf envDefault) [.error "connection refused", .ok [evSig "A"]]
        = some ([[TAct.inferCall]], some "A", false) :=
  ⟨rfl, rfl⟩
